import Mathlib

/-!
# Verification of the ceph2 provisioning task (qa/tasks/ceph2.py)

Shallow embedding of the orchestration logic of `qa/tasks/ceph2.py`:
the seed-configuration builder, first-monitor/first-manager selection,
the phase pipeline with reverse teardown, the monitor-quorum poll, the
manager expansion, the OSD device allocator and the stop operation.

Python dictionaries with ordered insertion (and `configobj.ConfigObj`)
are embedded as association lists; role names and host names are strings;
remote-command side effects are embedded as explicit event traces.
-/

namespace Ceph2

/-! ## Configuration documents (`configobj.ConfigObj`)

A config section is an ordered list of key/value pairs; a config document
is an ordered list of named sections.  `setKey` is `section[key] = value`
(replace in place if the key exists, else append), `hasSection` is
`section in conf`, `addSection` is `conf[section] = {}` (append at end). -/

abbrev ConfSection := List (String × String)

abbrev Conf := List (String × ConfSection)

def setKey : ConfSection → String → String → ConfSection
  | [], k, v => [(k, v)]
  | (k', v') :: rest, k, v =>
    if k' = k then (k, v) :: rest else (k', v') :: setKey rest k v

def hasSection (conf : Conf) (s : String) : Bool :=
  conf.any (fun p => p.1 = s)

def setSectionKey : Conf → String → String → String → Conf
  | [], s, k, v => [(s, setKey [] k v)]
  | (s', sec) :: rest, s, k, v =>
    if s' = s then (s, setKey sec k v) :: rest
    else (s', sec) :: setSectionKey rest s k v

/-- One override assignment step of the inner loop of
`build_initial_config`: ensure the section exists, then set the key. -/
def applyOverride (conf : Conf) (s k v : String) : Conf :=
  let conf := if hasSection conf s then conf else conf ++ [(s, [])]
  setSectionKey conf s k v

/-- The flattened override loop: `for section, keys in config['conf'].items():
for key, value in keys.items(): ...`. -/
def applyOverrides (conf : Conf) (ov : List (String × List (String × String))) : Conf :=
  ov.foldl (fun conf p => p.2.foldl (fun conf kv => applyOverride conf p.1 kv.1 kv.2) conf) conf

/-- `build_initial_config(ctx, config)` from qa/tasks/ceph2.py: start from an
empty document, force a `global` section holding the cluster fsid, then merge
the caller-supplied `config['conf']` overrides. -/
def build_initial_config (fsid : String) (ov : List (String × List (String × String))) : Conf :=
  applyOverrides [("global", setKey [] "fsid" fsid)] ov

/-- Lookup of `conf[section][key]` in the resulting document. -/
def lookupKey : ConfSection → String → Option String
  | [], _ => none
  | (k', v) :: rest, k => if k' = k then some v else lookupKey rest k

def lookupConf : Conf → String → String → Option String
  | [], _, _ => none
  | (s', sec) :: rest, s, k => if s' = s then lookupKey sec k else lookupConf rest s k

/-- Does the override list ever write to `(s, k)`? -/
def writesTo (ov : List (String × List (String × String))) (s k : String) : Bool :=
  ov.any (fun p => p.1 = s && p.2.any (fun kv => kv.1 = k))

/-- The section names of a config document, in order. -/
def sectionNames (conf : Conf) : List String :=
  conf.map (fun p => p.1)

/-! ## Python string primitives

Python compares strings lexicographically by code point, with a proper
initial segment ordered first; `r.startswith(p)` tests a literal initial
segment.  Both are embedded structurally on the character lists so that
the kernel can evaluate them on concrete inputs. -/

def charListLe : List Char → List Char → Bool
  | [], _ => true
  | _ :: _, [] => false
  | a :: as, b :: bs => if a = b then charListLe as bs else decide (a < b)

/-- Lexicographic `a <= b` on Python strings. -/
abbrev pyLe (a b : String) : Prop := charListLe a.data b.data = true

def charListPre : List Char → List Char → Bool
  | [], _ => true
  | _ :: _, [] => false
  | a :: as, b :: bs => a = b && charListPre as bs

/-- Python `s.startswith(p)`. -/
def pyStartsWith (s p : String) : Bool := charListPre p.data s.data

/-- Python `sorted(l)` on strings (any stable comparison sort computes the
same list; insertion sort is one). -/
def sortedStrings (l : List String) : List String := List.insertionSort pyLe l

/-! ## First-monitor / first-manager selection and `ceph_bootstrap`

`ctx.cluster.remotes` is embedded as an ordered association list from host
shortname to its list of role names; `ctx.mons` contributes its key list. -/

/-- `first_mon = sorted(mons.keys())[0]` (with `[0]` as `head?`). -/
def first_mon (monKeys : List String) : Option String := (sortedStrings monKeys).head?

/-- `(mon_remote,) = ctx.cluster.only(first_mon).remotes.keys()` together with
`others = ctx.cluster.remotes[mon_remote]`: the unique host entry whose role
list contains the first monitor. -/
def monHost (hosts : List (String × List String)) (fm : String) :
    Option (String × List String) :=
  hosts.find? (fun p => p.2.contains fm)

/-- `mgrs = sorted([r for r in others if r.startswith('mgr.')])`. -/
def mgrsOn (roles : List String) : List String :=
  sortedStrings (roles.filter (fun r => pyStartsWith r "mgr."))

/-- Remote-side actions issued by `ceph_bootstrap`, in program order. -/
inductive BootEvent where
  | writeSeedConf (host : String)
  | bootstrapCmd (host monId mgrId : String)
  | installSshKey
  | distribute (host : String)
  deriving DecidableEq, Repr

/-- `ceph_bootstrap(ctx, config, fsid)`: select the first monitor and the
first manager co-located with it, raising (`none`, with no command issued)
when the monitor key list is empty, the first monitor is on no host, or no
`mgr.*` role shares the first monitor's host; otherwise write the seed
config, run the bootstrap command (ids are the role names with the 4-char
type prefixes stripped), install the ssh key, and distribute configs to
every other host. -/
def ceph_bootstrap (hosts : List (String × List String)) (monKeys : List String) :
    List BootEvent × Option (String × String) :=
  match first_mon monKeys with
  | none => ([], none)
  | some fm =>
    match monHost hosts fm with
    | none => ([], none)
    | some (h, others) =>
      match (mgrsOn others).head? with
      | none => ([], none)
      | some fg =>
        (BootEvent.writeSeedConf h
          :: BootEvent.bootstrapCmd h (fm.drop 4) (fg.drop 4)
          :: BootEvent.installSshKey
          :: (hosts.filter (fun p => !(p.1 == h))).map (fun p => BootEvent.distribute p.1),
         some (fm, fg))

/-! ## The phase pipeline (`task` with `contextutil.nested`) -/

/-- Observable actions of the pipeline: phase `i` entering, the task body
running, phase `i`'s teardown running. -/
inductive PhaseEvent where
  | enter (i : Nat)
  | body
  | teardown (i : Nat)
  deriving DecidableEq, Repr

/-- Modelled from the spec: `teuthology.contextutil.nested` is not part of
this repository; per the spec's CleanupStack contract, each phase's teardown
is pushed when its entry action succeeds, and the stack is popped in reverse
on any exit.  `runPhases i oks b` runs the phases whose entry outcomes are
`oks` (starting at index `i`) around a body with outcome `b`, and returns
the event trace together with the overall outcome (`false` = an error
propagates to the caller). -/
def runPhases : Nat → List Bool → Bool → List PhaseEvent × Bool
  | _, [], b => ([PhaseEvent.body], b)
  | i, ok :: rest, b =>
    if ok then
      (PhaseEvent.enter i :: (runPhases (i + 1) rest b).1 ++ [PhaseEvent.teardown i],
        (runPhases (i + 1) rest b).2)
    else ([], false)

/-! ## Monitor expansion and the quorum convergence poll (`ceph_mons`) -/

/-- Observable actions of `ceph_mons`: a `mon update` instruction for a
monitor on a host requesting a total count, a `ceph mon dump` map query, and
a 1-second sleep. -/
inductive MonEvent where
  | addMon (host mon : String) (count : Nat)
  | query
  | sleep
  deriving DecidableEq, Repr

/-- The `while True` convergence poll of `ceph_mons`: query the monitor map
(`c k` is the monitor count reported by the `k`-th query, 0-based); break
when it equals `expected`, else sleep one second and query again.  The
source loop is unbounded; `fuel` bounds the embedding, with `none` meaning
the loop has not returned within `fuel` queries. -/
def pollLoop (c : Nat → Nat) (expected : Nat) : Nat → Nat → Option (List MonEvent)
  | 0, _ => none
  | fuel + 1, k =>
    if c k = expected then some [MonEvent.query]
    else
      match pollLoop c expected fuel (k + 1) with
      | none => none
      | some evs => some (MonEvent.query :: MonEvent.sleep :: evs)

/-- The event trace of a poll that first succeeds on (1-based) attempt `M`:
`M` queries with a single sleep between consecutive queries. -/
def pollPattern : Nat → List MonEvent
  | 0 => [MonEvent.query]
  | 1 => [MonEvent.query]
  | n + 2 => MonEvent.query :: MonEvent.sleep :: pollPattern (n + 1)

/-- The monitor map first reports `expected` on (1-based) query attempt
`M`. -/
abbrev firstSuccessAt (c : Nat → Nat) (expected M : Nat) : Prop :=
  1 ≤ M ∧ c (M - 1) = expected ∧ ∀ k, k < M - 1 → c k ≠ expected

/-- The non-first monitors, in host order then role order:
`[r for r in roles if r.startswith('mon.')]` skipping `ctx.first_mon`. -/
def monsToAdd (hosts : List (String × List String)) (fm : String) :
    List (String × String) :=
  hosts.flatMap (fun p =>
    ((p.2.filter (fun r => pyStartsWith r "mon.")).filter (fun r => !(r == fm))).map
      (fun r => (p.1, r)))

/-- The body of `ceph_mons`: for each non-first monitor issue `mon update`
with the incremented count, then poll the monitor map until it reports that
count.  `counts n k` is the monitor count reported by the `k`-th query while
waiting for `n` monitors. -/
def ceph_mons_go (counts : Nat → Nat → Nat) (fuel : Nat) :
    List (String × String) → Nat → Option (List MonEvent)
  | [], _ => some []
  | (h, m) :: rest, num_mons =>
    match pollLoop (counts (num_mons + 1)) (num_mons + 1) fuel 0 with
    | none => none
    | some evs =>
      match ceph_mons_go counts fuel rest (num_mons + 1) with
      | none => none
      | some evs2 => some (MonEvent.addMon h m (num_mons + 1) :: evs ++ evs2)

/-- `ceph_mons(ctx, config)`: `num_mons` starts at 1 (the bootstrap
monitor) and each additional monitor is added and fully converged in
sequence. -/
def ceph_mons (hosts : List (String × List String)) (fm : String)
    (counts : Nat → Nat → Nat) (fuel : Nat) : Option (List MonEvent) :=
  ceph_mons_go counts fuel (monsToAdd hosts fm) 1

/-- The expected trace of `ceph_mons`: for each monitor in order, its
`mon update` instruction followed by a full convergence poll (`Mf n` is the
1-based attempt on which the poll for `n` monitors first succeeds). -/
def monsTrace : List (String × String) → (Nat → Nat) → Nat → List MonEvent
  | [], _, _ => []
  | (h, m) :: rest, Mf, num_mons =>
    MonEvent.addMon h m (num_mons + 1) :: pollPattern (Mf (num_mons + 1))
      ++ monsTrace rest Mf (num_mons + 1)

/-! ## Manager expansion (`ceph_mgrs`) -/

/-- The `ceph orchestrator mgr update <n> <host...>` command issued by
`ceph_mgrs`. -/
structure MgrUpdate where
  count : Nat
  nodes : List String
  deriving DecidableEq, Repr

/-- One host-name entry per `mgr.*` role other than the first manager, in
host order then role order (`nodes.append(remote.shortname)`). -/
def mgrNodes (hosts : List (String × List String)) (first_mgr : String) : List String :=
  hosts.flatMap (fun p =>
    ((p.2.filter (fun r => pyStartsWith r "mgr.")).filter (fun r => !(r == first_mgr))).map
      (fun _ => p.1))

/-- The non-first `mgr.*` role names themselves, in the same order. -/
def nonFirstMgrs (hosts : List (String × List String)) (first_mgr : String) : List String :=
  hosts.flatMap (fun p =>
    (p.2.filter (fun r => pyStartsWith r "mgr.")).filter (fun r => !(r == first_mgr)))

/-- All `mgr.*` role names of the topology. -/
def allMgrs (hosts : List (String × List String)) : List String :=
  hosts.flatMap (fun p => p.2.filter (fun r => pyStartsWith r "mgr."))

/-- `ceph_mgrs(ctx, config)`: collect the non-first manager hosts, then
issue the single `mgr update` command with count `len(nodes) + 1`. -/
def ceph_mgrs (hosts : List (String × List String)) (first_mgr : String) :
    List MgrUpdate :=
  [⟨(mgrNodes hosts first_mgr).length + 1, mgrNodes hosts first_mgr⟩]

/-! ## Storage provisioning (`ceph_osds`) -/

/-- A remote as seen by `ceph_osds`: its shortname, assigned roles, and
free scratch block devices (`teuthology.get_scratch_devices`). -/
structure OsdHost where
  name : String
  roles : List String
  devs : List String
  deriving DecidableEq, Repr

/-- Remote-side actions issued by `ceph_osds`: `ceph-volume lvm zap <dev>`
and `ceph orchestrator osd create <host>:<dev>`. -/
inductive OsdEvent where
  | zap (host dev : String)
  | create (host dev : String)
  deriving DecidableEq, Repr

def isZapEv : OsdEvent → Bool
  | OsdEvent.zap _ _ => true
  | OsdEvent.create _ _ => false

def isCreateEv : OsdEvent → Bool
  | OsdEvent.zap _ _ => false
  | OsdEvent.create _ _ => true

/-- Python `devs.pop()`: remove and return the last element. -/
def popDev : List String → Option (String × List String)
  | [] => none
  | d :: ds =>
    match popDev ds with
    | none => some (d, [])
    | some (last, rest) => some (last, d :: rest)

/-- The `osd.*` roles of a role list. -/
def osdRoles (roles : List String) : List String :=
  roles.filter (fun r => pyStartsWith r "osd.")

/-- The inner deployment loop for one host: for each `osd.*` role,
`assert devs` (fail with no further event if the device list is empty),
pop one device and issue the creation command. -/
def deployHost (host : String) : List String → List String → List OsdEvent × Bool
  | [], _ => ([], true)
  | _ :: osds, devs =>
    match popDev devs with
    | none => ([], false)
    | some (dev, rest) =>
      (OsdEvent.create host dev :: (deployHost host osds rest).1,
        (deployHost host osds rest).2)

/-- The second pass of `ceph_osds`: deploy host by host, aborting at the
first assertion failure. -/
def deployAll : List OsdHost → List OsdEvent × Bool
  | [] => ([], true)
  | h :: hs =>
    match deployHost h.name (osdRoles h.roles) h.devs with
    | (evs, true) => (evs ++ (deployAll hs).1, (deployAll hs).2)
    | (evs, false) => (evs, false)

/-- The first pass of `ceph_osds`: zap every scratch device of every host,
in host order then device order. -/
def zapEvents (hosts : List OsdHost) : List OsdEvent :=
  hosts.flatMap (fun h => h.devs.map (fun d => OsdEvent.zap h.name d))

/-- `ceph_osds(ctx, config)`: one complete zapping pass over all hosts,
then the deployment pass; `false` means the assertion failure propagates. -/
def ceph_osds (hosts : List OsdHost) : List OsdEvent × Bool :=
  (zapEvents hosts ++ (deployAll hosts).1, (deployAll hosts).2)

/-- Per-host success condition of the device allocator. -/
abbrev hostOk (h : OsdHost) : Prop :=
  (osdRoles h.roles).length ≤ h.devs.length

/-! ## The stop operation (`stop`) -/

/-- `CEPH_ROLE_TYPES` from qa/tasks/ceph2.py line 34. -/
def CEPH_ROLE_TYPES : List String := ["mon", "mgr", "osd", "mds", "rgw"]

def splitDotsAux : List Char → List Char → List (List Char)
  | [], acc => [acc.reverse]
  | c :: cs, acc =>
    if c = '.' then acc.reverse :: splitDotsAux cs [] else splitDotsAux cs (c :: acc)

/-- Python `s.split('.')`. -/
def splitDots (s : String) : List String :=
  (splitDotsAux s.data []).map (fun l => String.mk l)

def joinDots : List String → String
  | [] => ""
  | [x] => x
  | x :: xs => x ++ "." ++ joinDots xs

/-- Modelled from the spec: `teuthology.split_role` is not part of this
repository.  A role identifier is `type.id` with the cluster defaulting to
`ceph`, or `cluster.type.id` in the multi-cluster form. -/
def split_role (role : String) : String × String × String :=
  match splitDots role with
  | [t, i] => ("ceph", t, i)
  | c :: t :: rest => (c, t, joinDots rest)
  | _ => ("ceph", role, "")

/-- Modelled from the spec: `DaemonGroup.resolve_role_list` is not part of
this repository.  With no explicit list, the role-type names act as
wildcards resolving against the live daemon registry to every registered
daemon of those types; in an explicit list a bare role-type entry resolves
the same way, and any other entry names a single daemon. -/
def resolve_role_list (roles : Option (List String)) (types : List String)
    (registry : List String) : List String :=
  match roles with
  | none => registry.filter (fun r => types.any (fun t => pyStartsWith r (t ++ ".")))
  | some rs => rs.flatMap (fun x =>
      if types.contains x then registry.filter (fun r => pyStartsWith r (x ++ "."))
      else [x])

/-- The `config` argument of `stop`: `None`, a bare list of role names, or
a mapping whose `daemons` key may be present or absent. -/
inductive StopConfig where
  | noConfig
  | roleList (ds : List String)
  | withDaemons (ds : Option (List String))
  deriving DecidableEq

/-- `config.get('daemons', None)` after the `None`/list normalization at
the top of `stop`. -/
def configDaemons : StopConfig → Option (List String)
  | StopConfig.noConfig => none
  | StopConfig.roleList ds => some ds
  | StopConfig.withDaemons ds => ds

/-- `stop(ctx, config)`: resolve the daemon list against the registry and
issue one stop per resolved daemon, as `(cluster, type, id)` triples in
order. -/
def stop (cfg : StopConfig) (registry : List String) :
    List (String × String × String) :=
  (resolve_role_list (configDaemons cfg) CEPH_ROLE_TYPES registry).map split_role

end Ceph2

namespace Ceph2

/-! ## Theorems -/

theorem lookupKey_setKey_self (sec : ConfSection) (k v : String) :
    lookupKey (setKey sec k v) k = some v := by
  induction sec with
  | nil => simp [setKey, lookupKey]
  | cons p rest ih =>
    by_cases h : p.1 = k
    · simp [setKey, h, lookupKey]
    · simp [setKey, h, lookupKey, ih]

theorem lookupKey_setKey_other (sec : ConfSection) (k k0 v : String) (h : k0 ≠ k) :
    lookupKey (setKey sec k v) k0 = lookupKey sec k0 := by
  have hk : ¬ (k = k0) := fun h1 => h (Eq.symm h1)
  induction sec with
  | nil => simp [setKey, lookupKey, hk]
  | cons p rest ih =>
    obtain ⟨k1, v1⟩ := p
    by_cases hp : k1 = k
    · subst hp
      simp [setKey, lookupKey, hk]
    · simp [setKey, hp, lookupKey, ih]

theorem lookupConf_setSectionKey_self (conf : Conf) (s k v : String) :
    lookupConf (setSectionKey conf s k v) s k = some v := by
  induction conf with
  | nil => simp [setSectionKey, lookupConf, lookupKey_setKey_self]
  | cons p rest ih =>
    by_cases h : p.1 = s
    · simp [setSectionKey, h, lookupConf, lookupKey_setKey_self]
    · simp [setSectionKey, h, lookupConf, ih]

theorem lookupConf_setSectionKey_other (conf : Conf) (s1 k1 v s k : String)
    (h : s1 ≠ s ∨ k1 ≠ k) :
    lookupConf (setSectionKey conf s1 k1 v) s k = lookupConf conf s k := by
  induction conf with
  | nil =>
    rcases h with h | h
    · simp [setSectionKey, lookupConf, h]
    · by_cases hs : s1 = s
      · simp [setSectionKey, lookupConf, hs, setKey, lookupKey, h]
      · simp [setSectionKey, lookupConf, hs]
  | cons p rest ih =>
    obtain ⟨sp, secp⟩ := p
    by_cases hp : sp = s1
    · subst hp
      rcases h with h | h
      · simp [setSectionKey, lookupConf, h]
      · by_cases hs : sp = s
        · simp [setSectionKey, lookupConf, hs,
            lookupKey_setKey_other secp k1 k v (fun h1 => h (Eq.symm h1))]
        · simp [setSectionKey, lookupConf, hs]
    · simp [setSectionKey, hp, lookupConf, ih]

theorem hasSection_iff_mem (conf : Conf) (s : String) :
    hasSection conf s = true ↔ s ∈ sectionNames conf := by
  induction conf with
  | nil => simp [hasSection, sectionNames]
  | cons p rest ih =>
    obtain ⟨sp, secp⟩ := p
    by_cases hp : sp = s
    · simp [hasSection, sectionNames, hp]
    · have hdec : (decide (sp = s)) = false := by simp [hp]
      simp only [hasSection, List.any_cons, hdec, Bool.false_or, sectionNames,
        List.map_cons, List.mem_cons]
      constructor
      · intro hh
        exact Or.inr (ih.mp hh)
      · rintro (h1 | h1)
        · exact absurd (Eq.symm h1) hp
        · exact ih.mpr h1

theorem lookupConf_eq_none_of_no_section (conf : Conf) (s k : String)
    (h : hasSection conf s = false) :
    lookupConf conf s k = none := by
  induction conf with
  | nil => simp [lookupConf]
  | cons p rest ih =>
    obtain ⟨sp, secp⟩ := p
    simp only [hasSection, List.any_cons, Bool.or_eq_false_iff,
      decide_eq_false_iff_not] at h
    simp only [lookupConf, if_neg h.1]
    exact ih (by simp [hasSection, h.2])

theorem lookupConf_append (conf : Conf) (s1 : String) (sec : ConfSection) (s k : String) :
    lookupConf (conf ++ [(s1, sec)]) s k =
      if hasSection conf s then lookupConf conf s k
      else if s1 = s then lookupKey sec k else none := by
  induction conf with
  | nil => simp [hasSection, lookupConf]
  | cons p rest ih =>
    obtain ⟨sp, secp⟩ := p
    by_cases hp : sp = s
    · simp [hasSection, lookupConf, hp]
    · have hdec : (decide (sp = s)) = false := by simp [hp]
      simp only [List.cons_append, lookupConf, if_neg hp, hasSection, List.any_cons,
        hdec, Bool.false_or]
      simpa [hasSection] using ih

theorem lookupConf_applyOverride_other (conf : Conf) (s1 k1 v s k : String)
    (h : s1 ≠ s ∨ k1 ≠ k) :
    lookupConf (applyOverride conf s1 k1 v) s k = lookupConf conf s k := by
  unfold applyOverride
  by_cases hsec : hasSection conf s1
  · simp only [hsec, if_true]
    exact lookupConf_setSectionKey_other conf s1 k1 v s k h
  · have hs' : hasSection conf s1 = false := by simpa using hsec
    rw [hs']
    simp only [Bool.false_eq_true, if_false]
    rw [lookupConf_setSectionKey_other _ s1 k1 v s k h, lookupConf_append]
    by_cases hcs : hasSection conf s
    · simp [hcs]
    · have hnone : lookupConf conf s k = none :=
        lookupConf_eq_none_of_no_section conf s k (by simpa using hcs)
    -- whatever the appended empty section contributes, both sides are `none`
      by_cases hss : s1 = s
      · simp [hcs, hss, lookupKey, hnone]
      · simp [hcs, hss, hnone]

theorem lookupConf_foldl_other_section (conf : Conf) (s1 : String)
    (kvs : List (String × String)) (s k : String) (h : s1 ≠ s) :
    lookupConf (kvs.foldl (fun conf kv => applyOverride conf s1 kv.1 kv.2) conf) s k
      = lookupConf conf s k := by
  induction kvs generalizing conf with
  | nil => simp
  | cons kv rest ih =>
    simp only [List.foldl_cons]
    rw [ih, lookupConf_applyOverride_other conf s1 kv.1 kv.2 s k (Or.inl h)]

theorem lookupConf_foldl_other_keys (conf : Conf) (s1 : String)
    (kvs : List (String × String)) (s k : String)
    (h : ∀ kv ∈ kvs, kv.1 ≠ k) :
    lookupConf (kvs.foldl (fun conf kv => applyOverride conf s1 kv.1 kv.2) conf) s k
      = lookupConf conf s k := by
  induction kvs generalizing conf with
  | nil => simp
  | cons kv rest ih =>
    simp only [List.foldl_cons]
    rw [ih _ (fun x hx => h x (List.mem_cons_of_mem _ hx)),
      lookupConf_applyOverride_other conf s1 kv.1 kv.2 s k
        (Or.inr (h kv (List.mem_cons_self _ _)))]

theorem lookupConf_applyOverrides_not_written (conf : Conf)
    (ov : List (String × List (String × String))) (s k : String)
    (h : writesTo ov s k = false) :
    lookupConf (applyOverrides conf ov) s k = lookupConf conf s k := by
  induction ov generalizing conf with
  | nil => simp [applyOverrides]
  | cons p rest ih =>
    obtain ⟨s1, kvs⟩ := p
    simp only [writesTo, List.any_cons, Bool.or_eq_false_iff, Bool.and_eq_false_iff] at h
    have hrest2 : writesTo rest s k = false := by
      simp [writesTo, h.2]
    have hstep : lookupConf (kvs.foldl (fun conf kv => applyOverride conf s1 kv.1 kv.2) conf) s k
        = lookupConf conf s k := by
      rcases h.1 with h1 | h1
      · exact lookupConf_foldl_other_section conf s1 kvs s k (by simpa using h1)
      · refine lookupConf_foldl_other_keys conf s1 kvs s k ?_
        intro kv hkv
        have := List.any_eq_false.mp h1 kv hkv
        simpa using this
    simp only [applyOverrides, List.foldl_cons]
    rw [show (List.foldl (fun conf p =>
        p.2.foldl (fun conf kv => applyOverride conf p.1 kv.1 kv.2) conf)
        (kvs.foldl (fun conf kv => applyOverride conf s1 kv.1 kv.2) conf) rest)
      = applyOverrides (kvs.foldl (fun conf kv => applyOverride conf s1 kv.1 kv.2) conf) rest
      from rfl]
    rw [ih _ hrest2, hstep]

theorem sectionNames_setSectionKey (conf : Conf) (s k v : String) :
    sectionNames (setSectionKey conf s k v) =
      if hasSection conf s then sectionNames conf else sectionNames conf ++ [s] := by
  induction conf with
  | nil => simp [setSectionKey, sectionNames, hasSection]
  | cons p rest ih =>
    obtain ⟨sp, secp⟩ := p
    by_cases hp : sp = s
    · simp [setSectionKey, hasSection, sectionNames, hp]
    · have hdec : (decide (sp = s)) = false := by simp [hp]
      simp only [setSectionKey, if_neg hp, sectionNames, List.map_cons, hasSection,
        List.any_cons, hdec, Bool.false_or] at ih ⊢
      rw [ih]
      by_cases hr : (rest.any fun p => decide (p.1 = s)) = true
      · simp [hr]
      · simp [hr]

theorem sectionNames_applyOverride (conf : Conf) (s k v : String) :
    sectionNames (applyOverride conf s k v) =
      if hasSection conf s then sectionNames conf else sectionNames conf ++ [s] := by
  unfold applyOverride
  by_cases hsec : hasSection conf s
  · simp only [hsec, if_true]
    rw [sectionNames_setSectionKey, if_pos hsec]
  · have hs' : hasSection conf s = false := by simpa using hsec
    rw [hs']
    simp only [Bool.false_eq_true, if_false]
    rw [sectionNames_setSectionKey]
    have happ : hasSection (conf ++ [(s, [])]) s = true := by
      rw [hasSection_iff_mem]
      simp [sectionNames]
    rw [if_pos happ]
    simp [sectionNames]

theorem mem_sectionNames_applyOverride (conf : Conf) (s1 k1 v1 s0 : String)
    (h : s0 ∈ sectionNames conf) :
    s0 ∈ sectionNames (applyOverride conf s1 k1 v1) := by
  rw [sectionNames_applyOverride]
  by_cases hsec : hasSection conf s1
  · simp [hsec, h]
  · have hs' : hasSection conf s1 = false := by simpa using hsec
    simp [hs', h]

theorem mem_sectionNames_foldl_keys (kvs : List (String × String)) (conf : Conf)
    (s1 s0 : String) (h : s0 ∈ sectionNames conf) :
    s0 ∈ sectionNames (kvs.foldl (fun conf kv => applyOverride conf s1 kv.1 kv.2) conf) := by
  induction kvs generalizing conf with
  | nil => simpa using h
  | cons kv rest ih =>
    simp only [List.foldl_cons]
    exact ih _ (mem_sectionNames_applyOverride conf s1 kv.1 kv.2 s0 h)

theorem mem_sectionNames_applyOverrides (ov : List (String × List (String × String)))
    (conf : Conf) (s0 : String) (h : s0 ∈ sectionNames conf) :
    s0 ∈ sectionNames (applyOverrides conf ov) := by
  induction ov generalizing conf with
  | nil => simpa [applyOverrides] using h
  | cons p rest ih =>
    simp only [applyOverrides, List.foldl_cons] at ih ⊢
    exact ih _ (mem_sectionNames_foldl_keys p.2 conf p.1 s0 h)

theorem mem_sectionNames_of_override (ov : List (String × List (String × String)))
    (conf : Conf) (s k v : String) (kvs : List (String × String))
    (h : (s, (k, v) :: kvs) ∈ ov) :
    s ∈ sectionNames (applyOverrides conf ov) := by
  induction ov generalizing conf with
  | nil => simp at h
  | cons p rest ih =>
    rcases List.mem_cons.mp h with h1 | h1
    · subst h1
      simp only [applyOverrides, List.foldl_cons]
      refine mem_sectionNames_applyOverrides rest _ s ?_
      refine mem_sectionNames_foldl_keys kvs _ s s ?_
      rw [sectionNames_applyOverride]
      by_cases hsec : hasSection conf s
      · rw [if_pos hsec]
        exact (hasSection_iff_mem conf s).mp hsec
      · have hs' : hasSection conf s = false := by simpa using hsec
        rw [hs']
        simp
    · simp only [applyOverrides, List.foldl_cons] at ih ⊢
      exact ih _ h1

theorem lookupConf_applyOverride_self (conf : Conf) (s k v : String) :
    lookupConf (applyOverride conf s k v) s k = some v := by
  unfold applyOverride
  exact lookupConf_setSectionKey_self _ s k v

/-- C5: `build_initial_config` always yields a document whose `global` section
carries the cluster fsid (when no override writes `global.fsid`); an override
write to a key — the last one, including one to `global.fsid` — replaces the
base value; an override naming a brand-new section adds that section; and
every section of the base document is preserved in the output. -/
theorem c5_build_initial_config (fsid s k v : String) (kvs : List (String × String))
    (ov pre : List (String × List (String × String))) :
    (writesTo ov "global" "fsid" = false →
      lookupConf (build_initial_config fsid ov) "global" "fsid" = some fsid)
    ∧ lookupConf (build_initial_config fsid (pre ++ [(s, [(k, v)])])) s k = some v
    ∧ ((s, (k, v) :: kvs) ∈ ov → s ∈ sectionNames (build_initial_config fsid ov))
    ∧ (∀ s0, s0 ∈ sectionNames [("global", setKey [] "fsid" fsid)] →
        s0 ∈ sectionNames (build_initial_config fsid ov)) := by
  refine ⟨?_, ?_, ?_, ?_⟩
  · intro h
    unfold build_initial_config
    rw [lookupConf_applyOverrides_not_written _ ov _ _ h]
    simp [lookupConf, setKey, lookupKey]
  · unfold build_initial_config applyOverrides
    rw [List.foldl_append]
    simp only [List.foldl_cons, List.foldl_nil]
    exact lookupConf_applyOverride_self _ s k v
  · intro h
    exact mem_sectionNames_of_override ov _ s k v kvs h
  · intro s0 h0
    exact mem_sectionNames_applyOverrides ov _ s0 h0

/-- Witness for C5 at a concrete input: fsid `X`, an override adding the new
section `client` (which does not touch `global.fsid`), and an appended
override that rewrites key `a` of section `client`. -/
theorem c5_build_initial_config_witness :
    lookupConf (build_initial_config "X" [("client", [("a", "1")])]) "global" "fsid"
        = some "X"
    ∧ lookupConf (build_initial_config "X"
        ([("global", [("fsid", "Y")])] ++ [("client", [("a", "1")])])) "client" "a"
        = some "1"
    ∧ "client" ∈ sectionNames (build_initial_config "X" [("client", [("a", "1")])])
    ∧ "global" ∈ sectionNames (build_initial_config "X" [("client", [("a", "1")])]) := by
  have h := c5_build_initial_config "X" "client" "a" "1" []
    [("client", [("a", "1")])] [("global", [("fsid", "Y")])]
  exact ⟨h.1 (by decide), h.2.1, h.2.2.1 (by decide), h.2.2.2 "global" (by decide)⟩

theorem charListLe_refl : ∀ l : List Char, charListLe l l = true
  | [] => rfl
  | a :: as => by simp [charListLe, charListLe_refl as]

theorem charListLe_total : ∀ as bs, charListLe as bs = true ∨ charListLe bs as = true
  | [], _ => Or.inl rfl
  | _ :: _, [] => Or.inr rfl
  | a :: as, b :: bs => by
    by_cases hab : a = b
    · subst hab
      simp only [charListLe, if_pos rfl]
      exact charListLe_total as bs
    · rcases lt_or_gt_of_ne hab with h | h
      · exact Or.inl (by simp [charListLe, hab, h])
      · refine Or.inr ?_
        simp only [charListLe]
        rw [if_neg (fun hh => hab (Eq.symm hh))]
        exact decide_eq_true h

theorem charListLe_trans :
    ∀ as bs cs, charListLe as bs = true → charListLe bs cs = true →
      charListLe as cs = true
  | [], _, _, _, _ => rfl
  | _ :: _, [], _, h1, _ => by simp [charListLe] at h1
  | _ :: _, _ :: _, [], _, h2 => by simp [charListLe] at h2
  | a :: as, b :: bs, c :: cs, h1, h2 => by
    by_cases hab : a = b
    · subst hab
      simp only [charListLe, if_pos rfl] at h1
      by_cases hbc : a = c
      · subst hbc
        simp only [charListLe, if_pos rfl] at h2 ⊢
        exact charListLe_trans as bs cs h1 h2
      · simp only [charListLe, if_neg hbc] at h2 ⊢
        exact h2
    · simp only [charListLe, if_neg hab] at h1
      have hab' : a < b := of_decide_eq_true h1
      by_cases hbc : b = c
      · subst hbc
        simp only [charListLe, if_neg hab]
        exact decide_eq_true hab'
      · simp only [charListLe, if_neg hbc] at h2
        have hbc' : b < c := of_decide_eq_true h2
        have hac : a < c := lt_trans hab' hbc'
        simp only [charListLe, if_neg (ne_of_lt hac)]
        exact decide_eq_true hac

theorem sortedStrings_head_min (l : List String) (m : String)
    (h : (sortedStrings l).head? = some m) : m ∈ l ∧ ∀ x ∈ l, pyLe m x := by
  haveI : IsTotal String pyLe := ⟨fun a b => charListLe_total a.data b.data⟩
  haveI : IsTrans String pyLe := ⟨fun a b c => charListLe_trans a.data b.data c.data⟩
  have hperm : List.Perm (sortedStrings l) l := List.perm_insertionSort pyLe l
  have hsorted : List.Sorted pyLe (sortedStrings l) := List.sorted_insertionSort pyLe l
  cases hs : sortedStrings l with
  | nil => rw [hs] at h; simp at h
  | cons a t =>
    rw [hs] at h hperm hsorted
    simp only [List.head?_cons, Option.some.injEq] at h
    subst h
    constructor
    · exact hperm.subset (List.mem_cons_self _ _)
    · intro x hx
      rcases List.mem_cons.mp (hperm.mem_iff.mpr hx) with h1 | h1
      · subst h1
        exact charListLe_refl _
      · exact List.rel_of_sorted_cons hsorted x h1

theorem sortedStrings_eq_nil_iff (l : List String) : sortedStrings l = [] ↔ l = [] := by
  have hperm : List.Perm (sortedStrings l) l := List.perm_insertionSort pyLe l
  constructor
  · intro h
    rw [h] at hperm
    exact (hperm.symm).eq_nil
  · intro h
    subst h
    rfl

/-- C4: the designated first monitor is the lexicographically smallest role
name among all monitor roles, the designated first manager is the
lexicographically smallest `mgr.*` role among those on the first monitor's
host, and on the example topology — monitors `mon.b`, `mon.a` on `H1`,
`mgr.c` on `H1`, `mgr.a` on `H2` — the selection is `mon.a` and `mgr.c`. -/
theorem c4_first_selection (monKeys roles : List String) (m g : String) :
    (first_mon monKeys = some m → m ∈ monKeys ∧ ∀ x ∈ monKeys, pyLe m x)
    ∧ ((mgrsOn roles).head? = some g →
        g ∈ roles ∧ pyStartsWith g "mgr." = true ∧
          ∀ x ∈ roles, pyStartsWith x "mgr." = true → pyLe g x)
    ∧ ceph_bootstrap [("H1", ["mon.b", "mon.a", "mgr.c"]), ("H2", ["mgr.a"])]
        ["mon.b", "mon.a"]
      = ([BootEvent.writeSeedConf "H1", BootEvent.bootstrapCmd "H1" "a" "c",
          BootEvent.installSshKey, BootEvent.distribute "H2"],
        some ("mon.a", "mgr.c")) := by
  refine ⟨?_, ?_, ?_⟩
  · intro h
    exact sortedStrings_head_min monKeys m h
  · intro h
    obtain ⟨hg, hmin⟩ :=
      sortedStrings_head_min (roles.filter (fun r => pyStartsWith r "mgr.")) g h
    have hg' := List.mem_filter.mp hg
    refine ⟨hg'.1, hg'.2, ?_⟩
    intro x hx hpx
    exact hmin x (List.mem_filter.mpr ⟨hx, hpx⟩)
  · decide

/-- Witness for C4: the general minimality statements evaluated on the
example monitor key list and the example role list of host `H1`. -/
theorem c4_first_selection_witness :
    ("mon.a" ∈ ["mon.b", "mon.a"] ∧ ∀ x ∈ ["mon.b", "mon.a"], pyLe "mon.a" x)
    ∧ ("mgr.c" ∈ ["mon.b", "mon.a", "mgr.c"] ∧ pyStartsWith "mgr.c" "mgr." = true ∧
        ∀ x ∈ ["mon.b", "mon.a", "mgr.c"], pyStartsWith x "mgr." = true →
          pyLe "mgr.c" x) := by
  have h := c4_first_selection ["mon.b", "mon.a"] ["mon.b", "mon.a", "mgr.c"]
    "mon.a" "mgr.c"
  exact ⟨h.1 (by decide), h.2.1 (by decide)⟩

/-- C6: with a designated first monitor located on host `h` carrying roles
`others`, `ceph_bootstrap` fails if and only if no `mgr.*` role is among
`others`, and in that case it fails before issuing any command. -/
theorem c6_bootstrap_requires_colocated_mgr
    (hosts : List (String × List String)) (monKeys : List String)
    (fm h : String) (others : List String)
    (h1 : first_mon monKeys = some fm)
    (h2 : monHost hosts fm = some (h, others)) :
    ((ceph_bootstrap hosts monKeys).2 = none ↔
      others.filter (fun r => pyStartsWith r "mgr.") = [])
    ∧ (others.filter (fun r => pyStartsWith r "mgr.") = [] →
      (ceph_bootstrap hosts monKeys).1 = []) := by
  have hkey : (mgrsOn others).head? = none ↔
      others.filter (fun r => pyStartsWith r "mgr.") = [] := by
    rw [List.head?_eq_none_iff]
    exact sortedStrings_eq_nil_iff _
  cases hopt : (mgrsOn others).head? with
  | none =>
    have hfil := hkey.mp hopt
    constructor
    · rw [show (ceph_bootstrap hosts monKeys).2 = none from by
        simp [ceph_bootstrap, h1, h2, hopt]]
      exact iff_of_true rfl hfil
    · intro _
      simp [ceph_bootstrap, h1, h2, hopt]
  | some fg =>
    have hfil : ¬ others.filter (fun r => pyStartsWith r "mgr.") = [] := by
      intro hc
      rw [← hkey, hopt] at hc
      exact Option.noConfusion hc
    constructor
    · have hres : (ceph_bootstrap hosts monKeys).2 = some (fm, fg) := by
        simp [ceph_bootstrap, h1, h2, hopt]
      rw [hres]
      exact iff_of_false (fun hc => Option.noConfusion hc) hfil
    · intro hc
      exact absurd hc hfil

/-- Witness for C6: a topology whose first monitor host `H1` has no manager
role; bootstrap reports failure with an empty command trace. -/
theorem c6_bootstrap_requires_colocated_mgr_witness :
    (ceph_bootstrap [("H1", ["mon.a"]), ("H2", ["mgr.a"])] ["mon.a"]).2 = none
    ∧ (ceph_bootstrap [("H1", ["mon.a"]), ("H2", ["mgr.a"])] ["mon.a"]).1 = [] := by
  have h := c6_bootstrap_requires_colocated_mgr [("H1", ["mon.a"]), ("H2", ["mgr.a"])]
    ["mon.a"] "mon.a" "H1" ["mon.a"] (by decide) (by decide)
  exact ⟨h.1.mpr (by decide), h.2 (by decide)⟩

theorem runPhases_fail :
    ∀ (N i : Nat) (rest : List Bool) (b : Bool),
      runPhases i (List.replicate N true ++ false :: rest) b
        = ((List.range' i N).map PhaseEvent.enter
            ++ (List.range' i N).reverse.map PhaseEvent.teardown, false)
  | 0, i, rest, b => by simp [runPhases]
  | N + 1, i, rest, b => by
    have ih := runPhases_fail N (i + 1) rest b
    simp only [List.replicate_succ, List.cons_append, runPhases, if_true, List.range'_succ]
    simp only [List.append_eq]
    rw [ih]
    simp [List.map_append, List.append_assoc]

theorem runPhases_success :
    ∀ (n i : Nat) (b : Bool),
      runPhases i (List.replicate n true) b
        = ((List.range' i n).map PhaseEvent.enter
            ++ PhaseEvent.body :: (List.range' i n).reverse.map PhaseEvent.teardown, b)
  | 0, i, b => by simp [runPhases]
  | n + 1, i, b => by
    have ih := runPhases_success n (i + 1) b
    simp only [List.replicate_succ, runPhases, if_true, List.range'_succ]
    rw [ih]
    simp [List.map_append, List.append_assoc]

/-- C1: if the first `N` phases enter successfully and phase `N+1`'s entry
fails, the trace is exactly the `N` entries followed by the `N` teardowns in
reverse order of entry — each exactly once — and the overall outcome is the
propagated failure; if all `n` phases enter successfully, the body runs and
all `n` teardowns run in reverse order of entry, whether the body succeeds
or fails. -/
theorem c1_pipeline_teardown (N n : Nat) (rest : List Bool) (b b2 : Bool) :
    runPhases 0 (List.replicate N true ++ false :: rest) b
      = ((List.range N).map PhaseEvent.enter
          ++ (List.range N).reverse.map PhaseEvent.teardown, false)
    ∧ runPhases 0 (List.replicate n true) b2
      = ((List.range n).map PhaseEvent.enter
          ++ PhaseEvent.body :: (List.range n).reverse.map PhaseEvent.teardown, b2) := by
  constructor
  · rw [List.range_eq_range']
    exact runPhases_fail N 0 rest b
  · rw [List.range_eq_range']
    exact runPhases_success n 0 b2

theorem pollLoop_diverge (c : Nat → Nat) (expected : Nat)
    (h : ∀ k, c k ≠ expected) :
    ∀ fuel k, pollLoop c expected fuel k = none
  | 0, _ => rfl
  | fuel + 1, k => by
    simp [pollLoop, h k, pollLoop_diverge c expected h fuel (k + 1)]

theorem pollLoop_converge (c : Nat → Nat) (expected : Nat) :
    ∀ M k fuel, 1 ≤ M → c (k + M - 1) = expected →
      (∀ j, j < M - 1 → c (k + j) ≠ expected) → M ≤ fuel →
      pollLoop c expected fuel k = some (pollPattern M) := by
  intro M
  induction M with
  | zero => omega
  | succ m ih =>
    intro k fuel _ hhit hmiss hfuel
    obtain ⟨f, rfl⟩ : ∃ f, fuel = f + 1 := ⟨fuel - 1, by omega⟩
    cases m with
    | zero =>
      have hk : c k = expected := by simpa using hhit
      simp [pollLoop, hk, pollPattern]
    | succ m1 =>
      have hk : c k ≠ expected := by
        have := hmiss 0 (by omega)
        simpa using this
      have hrec : pollLoop c expected f (k + 1) = some (pollPattern (m1 + 1)) := by
        refine ih (k + 1) f (by omega) ?_ ?_ (by omega)
        · have : k + 1 + (m1 + 1) - 1 = k + (m1 + 1 + 1) - 1 := by omega
          rw [this]
          exact hhit
        · intro j hj
          have : k + 1 + j = k + (j + 1) := by omega
          rw [this]
          exact hmiss (j + 1) (by omega)
      simp [pollLoop, hk, hrec, pollPattern]

theorem pollPattern_count :
    ∀ M, 1 ≤ M → (pollPattern M).count MonEvent.query = M
      ∧ (pollPattern M).count MonEvent.sleep = M - 1
  | 0, h => by omega
  | 1, _ => by simp [pollPattern, List.count_cons, List.count_nil]
  | M + 2, _ => by
    have ih := pollPattern_count (M + 1) (by omega)
    simp only [pollPattern, List.count_cons]
    simp [ih.1, ih.2]

theorem ceph_mons_go_trace (counts : Nat → Nat → Nat) (Mf : Nat → Nat) (fuel : Nat)
    (h : ∀ i, firstSuccessAt (counts i) i (Mf i) ∧ Mf i ≤ fuel) :
    ∀ (ms : List (String × String)) (num : Nat),
      ceph_mons_go counts fuel ms num = some (monsTrace ms Mf num)
  | [], num => rfl
  | (hm, m) :: rest, num => by
    obtain ⟨⟨h1, h2, h3⟩, h4⟩ := h (num + 1)
    have hpoll := pollLoop_converge (counts (num + 1)) (num + 1) (Mf (num + 1)) 0 fuel
      h1 (by simpa using h2) (by simpa using h3) h4
    simp only [ceph_mons_go, hpoll]
    rw [ceph_mons_go_trace counts Mf fuel h rest (num + 1)]
    simp [monsTrace]

/-- C3: a convergence poll whose monitor map first reports the expected
count on (1-based) attempt `M` returns the trace `pollPattern M`, which has
exactly `M` queries and `M - 1` sleeps (one between consecutive queries); a
map that never reports the expected count makes the poll return within no
fuel bound at all; and `ceph_mons` adds monitors strictly in sequence, each
`mon update` followed by its own complete convergence poll. -/
theorem c3_quorum_poll (c cdiv : Nat → Nat) (expected M fuel fuel2 : Nat)
    (hosts : List (String × List String)) (fm : String)
    (counts : Nat → Nat → Nat) (Mf : Nat → Nat) (fuelm : Nat) :
    (firstSuccessAt c expected M → M ≤ fuel →
      pollLoop c expected fuel 0 = some (pollPattern M))
    ∧ (1 ≤ M → (pollPattern M).count MonEvent.query = M
        ∧ (pollPattern M).count MonEvent.sleep = M - 1)
    ∧ ((∀ k, cdiv k ≠ expected) → pollLoop cdiv expected fuel2 0 = none)
    ∧ ((∀ i, firstSuccessAt (counts i) i (Mf i) ∧ Mf i ≤ fuelm) →
        ceph_mons hosts fm counts fuelm = some (monsTrace (monsToAdd hosts fm) Mf 1)) := by
  refine ⟨?_, ?_, ?_, ?_⟩
  · intro hfs hfuel
    obtain ⟨h1, h2, h3⟩ := hfs
    exact pollLoop_converge c expected M 0 fuel h1 (by simpa using h2) (by simpa using h3) hfuel
  · exact pollPattern_count M
  · intro h
    exact pollLoop_diverge cdiv expected h fuel2 0
  · intro h
    exact ceph_mons_go_trace counts Mf fuelm h (monsToAdd hosts fm) 1

/-- Witness for C3: a map converging on attempt 2 with 7 fuel, a map stuck
at 0 monitors, and a two-monitor host whose second monitor converges on the
first query. -/
theorem c3_quorum_poll_witness :
    pollLoop (fun k => if k = 1 then 2 else 0) 2 7 0 = some (pollPattern 2)
    ∧ ((pollPattern 2).count MonEvent.query = 2
        ∧ (pollPattern 2).count MonEvent.sleep = 1)
    ∧ pollLoop (fun _ => 0) 2 9 0 = none
    ∧ ceph_mons [("H1", ["mon.a", "mon.b"])] "mon.a" (fun i _ => i) 1
      = some (monsTrace (monsToAdd [("H1", ["mon.a", "mon.b"])] "mon.a") (fun _ => 1) 1) := by
  have h := c3_quorum_poll (fun k => if k = 1 then 2 else 0) (fun _ => 0) 2 2 7 9
    [("H1", ["mon.a", "mon.b"])] "mon.a" (fun i _ => i) (fun _ => 1) 1
  refine ⟨h.1 (by decide) (by decide), h.2.1 (by decide), h.2.2.1 (fun k => by decide),
    h.2.2.2 ?_⟩
  intro i
  exact ⟨⟨Nat.le_refl 1, rfl, fun k hk => absurd hk (Nat.not_lt_zero k)⟩, Nat.le_refl 1⟩

/-- C7: stopping with an explicit daemon list — in either the bare-list or
the `daemons:` mapping form — issues stop instructions to exactly
`osd.0` and `osd.2` (cluster `ceph`), whatever the live registry holds;
no other daemon receives one. -/
theorem c7_stop_explicit (registry : List String) :
    stop (StopConfig.roleList ["osd.0", "osd.2"]) registry
      = [("ceph", "osd", "0"), ("ceph", "osd", "2")]
    ∧ stop (StopConfig.withDaemons (some ["osd.0", "osd.2"])) registry
      = [("ceph", "osd", "0"), ("ceph", "osd", "2")]
    ∧ ∀ c t i, (c, t, i) ∈ stop (StopConfig.roleList ["osd.0", "osd.2"]) registry ↔
        ((c, t, i) = ("ceph", "osd", "0") ∨ (c, t, i) = ("ceph", "osd", "2")) := by
  refine ⟨rfl, rfl, ?_⟩
  intro c t i
  rw [show stop (StopConfig.roleList ["osd.0", "osd.2"]) registry
    = [("ceph", "osd", "0"), ("ceph", "osd", "2")] from rfl]
  simp

/-- C8: stopping with no configuration (config `None`, or a mapping without
a `daemons` key) resolves by wildcard to every registered daemon whose role
type is in `CEPH_ROLE_TYPES` (`mon`, `mgr`, `osd`, `mds`, `rgw`), and each
of those — and only those — receives a stop instruction. -/
theorem c8_stop_wildcard (registry : List String) :
    stop StopConfig.noConfig registry
      = (registry.filter
          (fun r => CEPH_ROLE_TYPES.any (fun t => pyStartsWith r (t ++ ".")))).map split_role
    ∧ stop (StopConfig.withDaemons none) registry = stop StopConfig.noConfig registry
    ∧ (∀ r ∈ registry, CEPH_ROLE_TYPES.any (fun t => pyStartsWith r (t ++ ".")) = true →
        split_role r ∈ stop StopConfig.noConfig registry)
    ∧ stop StopConfig.noConfig
        ["mon.a", "mgr.x", "osd.0", "mds.c", "rgw.r", "client.0", "hadoop.0"]
      = [("ceph", "mon", "a"), ("ceph", "mgr", "x"), ("ceph", "osd", "0"),
         ("ceph", "mds", "c"), ("ceph", "rgw", "r")] := by
  refine ⟨rfl, rfl, ?_, by decide⟩
  intro r hr hmatch
  exact List.mem_map_of_mem split_role (List.mem_filter.mpr ⟨hr, hmatch⟩)

/-- Witness for C8: in a registry holding `osd.0` and `client.0`, the
wildcard resolution stops `osd.0`. -/
theorem c8_stop_wildcard_witness :
    split_role "osd.0" ∈ stop StopConfig.noConfig ["osd.0", "client.0"] := by
  have h := c8_stop_wildcard ["osd.0", "client.0"]
  exact h.2.2.1 "osd.0" (by decide) (by decide)

theorem mgrNodes_length (hosts : List (String × List String)) (fm : String) :
    (mgrNodes hosts fm).length = (nonFirstMgrs hosts fm).length := by
  induction hosts with
  | nil => rfl
  | cons p rest ih =>
    simp only [mgrNodes, nonFirstMgrs, List.flatMap_cons, List.length_append,
      List.length_map] at ih ⊢
    rw [ih]

theorem nonFirstMgrs_eq_filter (hosts : List (String × List String)) (fm : String) :
    nonFirstMgrs hosts fm = (allMgrs hosts).filter (fun r => !(r == fm)) := by
  induction hosts with
  | nil => rfl
  | cons p rest ih =>
    simp only [nonFirstMgrs, allMgrs, List.flatMap_cons, List.filter_append] at ih ⊢
    rw [ih]

theorem length_filter_ne_add_count (l : List String) (fm : String) :
    (l.filter (fun r => !(r == fm))).length + l.count fm = l.length := by
  induction l with
  | nil => rfl
  | cons a rest ih =>
    by_cases ha : a == fm
    · have ha' : a = fm := by simpa using ha
      simp [List.filter_cons, ha, List.count_cons, ha', ← ih]
      omega
    · have hb : (a == fm) = false := by simpa using ha
      simp [List.filter_cons, hb, List.count_cons, ← ih]
      omega

/-- C10: `ceph_mgrs` issues exactly one `mgr update` command; its requested
count is one plus the number of non-first manager roles, its host-name
argument list has one entry per non-first manager role, and — whenever the
first manager occurs exactly once in the topology — the requested count
equals the total number of declared manager roles. -/
theorem c10_ceph_mgrs (hosts : List (String × List String)) (fm : String) :
    (ceph_mgrs hosts fm).length = 1
    ∧ ∀ u ∈ ceph_mgrs hosts fm,
        u.count = (nonFirstMgrs hosts fm).length + 1
        ∧ u.nodes.length = (nonFirstMgrs hosts fm).length
        ∧ ((allMgrs hosts).count fm = 1 → u.count = (allMgrs hosts).length) := by
  refine ⟨rfl, ?_⟩
  intro u hu
  have hu' : u = ⟨(mgrNodes hosts fm).length + 1, mgrNodes hosts fm⟩ := by
    simpa [ceph_mgrs] using hu
  subst hu'
  refine ⟨by simp [mgrNodes_length], by simp [mgrNodes_length], ?_⟩
  intro hcount
  have h1 := length_filter_ne_add_count (allMgrs hosts) fm
  rw [hcount] at h1
  simp only [mgrNodes_length, nonFirstMgrs_eq_filter]
  omega

/-- Witness for C10: two managers on `H1`, one on `H2`, first manager
`mgr.x`; the single command requests 3 managers, the total declared. -/
theorem c10_ceph_mgrs_witness :
    (ceph_mgrs [("H1", ["mgr.x", "mgr.y"]), ("H2", ["mgr.z"])] "mgr.x").length = 1
    ∧ (MgrUpdate.mk 3 ["H1", "H2"]).count
        = (allMgrs [("H1", ["mgr.x", "mgr.y"]), ("H2", ["mgr.z"])]).length := by
  have h := c10_ceph_mgrs [("H1", ["mgr.x", "mgr.y"]), ("H2", ["mgr.z"])] "mgr.x"
  refine ⟨h.1, ?_⟩
  have h2 := h.2 ⟨3, ["H1", "H2"]⟩ (by decide)
  exact h2.2.2 (by decide)

theorem popDev_none_iff (devs : List String) : popDev devs = none ↔ devs = [] := by
  cases devs with
  | nil => simp [popDev]
  | cons d ds =>
    cases hp : popDev ds with
    | none => simp [popDev, hp]
    | some pr => simp [popDev, hp]

theorem popDev_some_spec :
    ∀ (devs rest : List String) (d : String), popDev devs = some (d, rest) →
      devs.length = rest.length + 1 ∧ d ∈ devs ∧ ∀ x ∈ rest, x ∈ devs
  | [], _, _, h => by simp [popDev] at h
  | d0 :: ds, rest, d, h => by
    cases hp : popDev ds with
    | none =>
      have hds : ds = [] := (popDev_none_iff ds).mp hp
      subst hds
      simp only [popDev] at h
      rw [Option.some.injEq, Prod.mk.injEq] at h
      obtain ⟨rfl, rfl⟩ := h
      simp
    | some pr =>
      obtain ⟨last, r'⟩ := pr
      simp only [popDev, hp] at h
      rw [Option.some.injEq, Prod.mk.injEq] at h
      obtain ⟨h1, h2⟩ := h
      rw [← h1, ← h2]
      obtain ⟨ih1, ih2, ih3⟩ := popDev_some_spec ds r' last hp
      refine ⟨by simp [ih1], List.mem_cons_of_mem _ ih2, ?_⟩
      intro x hx
      rcases List.mem_cons.mp hx with h1 | h1
      · exact h1 ▸ List.mem_cons_self _ _
      · exact List.mem_cons_of_mem _ (ih3 x h1)

theorem deployHost_ok (host : String) :
    ∀ (osds devs : List String),
      (deployHost host osds devs).2 = true ↔ osds.length ≤ devs.length
  | [], devs => by simp [deployHost]
  | o :: osds, devs => by
    cases hp : popDev devs with
    | none =>
      have hds : devs = [] := (popDev_none_iff devs).mp hp
      subst hds
      simp [deployHost, hp]
    | some pr =>
      obtain ⟨dev, rest⟩ := pr
      have hlen := (popDev_some_spec devs rest dev hp).1
      simp only [deployHost, hp, List.length_cons]
      rw [deployHost_ok host osds rest]
      omega

theorem deployHost_events (host : String) :
    ∀ (osds devs : List String), ∀ e ∈ (deployHost host osds devs).1,
      ∃ d, d ∈ devs ∧ e = OsdEvent.create host d
  | [], devs => by simp [deployHost]
  | o :: osds, devs => by
    cases hp : popDev devs with
    | none => simp [deployHost, hp]
    | some pr =>
      obtain ⟨dev, rest⟩ := pr
      obtain ⟨_, hmem, hsub⟩ := popDev_some_spec devs rest dev hp
      intro e he
      simp only [deployHost, hp, List.mem_cons] at he
      rcases he with he | he
      · exact ⟨dev, hmem, he⟩
      · obtain ⟨d, hd, hde⟩ := deployHost_events host osds rest e he
        exact ⟨d, hsub d hd, hde⟩

theorem deployHost_fail_length (host : String) :
    ∀ (osds devs : List String), devs.length < osds.length →
      (deployHost host osds devs).1.length = devs.length
  | [], devs, h => by simp at h
  | o :: osds, devs, h => by
    cases hp : popDev devs with
    | none =>
      have hds : devs = [] := (popDev_none_iff devs).mp hp
      subst hds
      simp [deployHost, hp]
    | some pr =>
      obtain ⟨dev, rest⟩ := pr
      have hlen := (popDev_some_spec devs rest dev hp).1
      simp only [List.length_cons] at h
      simp only [deployHost, hp, List.length_cons]
      rw [deployHost_fail_length host osds rest (by omega)]
      omega

theorem deployAll_ok :
    ∀ hosts : List OsdHost, (deployAll hosts).2 = true ↔ ∀ g ∈ hosts, hostOk g
  | [] => by simp [deployAll]
  | h :: hs => by
    cases hd : deployHost h.name (osdRoles h.roles) h.devs with
    | mk evs ok =>
      cases ok with
      | true =>
        have hok : hostOk h := by
          have h2 : (deployHost h.name (osdRoles h.roles) h.devs).2 = true := by
            rw [hd]
          exact (deployHost_ok h.name (osdRoles h.roles) h.devs).mp h2
        simp only [deployAll, hd]
        rw [deployAll_ok hs]
        simp [hok]
      | false =>
        have hbad : ¬ hostOk h := by
          intro hc
          have := (deployHost_ok h.name (osdRoles h.roles) h.devs).mpr hc
          rw [hd] at this
          exact Bool.noConfusion this
        simp only [deployAll, hd]
        constructor
        · intro hc
          exact Bool.noConfusion hc
        · intro hc
          exact absurd (hc h (List.mem_cons_self _ _)) hbad

theorem deployAll_events :
    ∀ hosts : List OsdHost, ∀ e ∈ (deployAll hosts).1, isCreateEv e = true
  | [] => by simp [deployAll]
  | h :: hs => by
    intro e he
    cases hd : deployHost h.name (osdRoles h.roles) h.devs with
    | mk evs ok =>
      have hev : ∀ x ∈ evs, isCreateEv x = true := by
        intro x hx
        obtain ⟨d, _, hde⟩ := deployHost_events h.name (osdRoles h.roles) h.devs x
          (by rw [hd]; exact hx)
        rw [hde]
        rfl
      cases ok with
      | true =>
        rw [deployAll, hd] at he
        simp only [List.mem_append] at he
        rcases he with he | he
        · exact hev e he
        · exact deployAll_events hs e he
      | false =>
        rw [deployAll, hd] at he
        exact hev e he

theorem deployAll_append_ok :
    ∀ (pre rest : List OsdHost), (∀ g ∈ pre, hostOk g) →
      deployAll (pre ++ rest) = ((deployAll pre).1 ++ (deployAll rest).1, (deployAll rest).2)
  | [], rest, _ => by simp [deployAll]
  | g :: pre, rest, hpre => by
    have hok : (deployHost g.name (osdRoles g.roles) g.devs).2 = true :=
      (deployHost_ok g.name (osdRoles g.roles) g.devs).mpr
        (hpre g (List.mem_cons_self _ _))
    cases hd : deployHost g.name (osdRoles g.roles) g.devs with
    | mk evs ok =>
      rw [hd] at hok
      subst hok
      simp only [List.cons_append, deployAll, hd]
      simp only [List.append_eq]
      rw [deployAll_append_ok pre rest (fun x hx => hpre x (List.mem_cons_of_mem _ hx))]
      simp [List.append_assoc]

theorem deployAll_fail_head (h : OsdHost) (post : List OsdHost)
    (hbad : ¬ hostOk h) :
    deployAll (h :: post) = ((deployHost h.name (osdRoles h.roles) h.devs).1, false) := by
  cases hd : deployHost h.name (osdRoles h.roles) h.devs with
  | mk evs ok =>
    cases ok with
    | true =>
      exact absurd ((deployHost_ok h.name (osdRoles h.roles) h.devs).mp (by rw [hd])) hbad
    | false =>
      simp only [deployAll, hd]

/-- C2 (amended): the storage-daemon allocator succeeds if and only if every
host has at least as many free scratch devices as assigned storage roles.
When the (first) host `h` is over-subscribed, the assertion failure
propagates after exactly `h.devs.length` storage-creation commands have been
issued for `h` — one per free device, each consuming a popped device — and
before any command for the roles beyond the device count or for later
hosts. -/
theorem c2_osd_allocator (hosts2 pre post : List OsdHost) (h : OsdHost)
    (hpre : ∀ g ∈ pre, hostOk g)
    (hbad : h.devs.length < (osdRoles h.roles).length) :
    ((ceph_osds hosts2).2 = true ↔ ∀ g ∈ hosts2, hostOk g)
    ∧ (ceph_osds (pre ++ h :: post)).2 = false
    ∧ (ceph_osds (pre ++ h :: post)).1
        = zapEvents (pre ++ h :: post) ++ (deployAll pre).1
          ++ (deployHost h.name (osdRoles h.roles) h.devs).1
    ∧ (deployHost h.name (osdRoles h.roles) h.devs).1.length = h.devs.length
    ∧ (∀ e ∈ (deployHost h.name (osdRoles h.roles) h.devs).1,
        ∃ d, d ∈ h.devs ∧ e = OsdEvent.create h.name d) := by
  have hbad' : ¬ hostOk h := by
    simp only [hostOk, not_le]
    exact hbad
  have hsplit := deployAll_append_ok pre (h :: post) hpre
  rw [deployAll_fail_head h post hbad'] at hsplit
  refine ⟨?_, ?_, ?_, ?_, ?_⟩
  · rw [show (ceph_osds hosts2).2 = (deployAll hosts2).2 from rfl]
    exact deployAll_ok hosts2
  · rw [show (ceph_osds (pre ++ h :: post)).2 = (deployAll (pre ++ h :: post)).2 from rfl,
      hsplit]
  · rw [show (ceph_osds (pre ++ h :: post)).1
      = zapEvents (pre ++ h :: post) ++ (deployAll (pre ++ h :: post)).1 from rfl, hsplit]
    simp [List.append_assoc]
  · exact deployHost_fail_length h.name (osdRoles h.roles) h.devs hbad
  · exact deployHost_events h.name (osdRoles h.roles) h.devs

/-- Counterexample to C2 as stated: host `h1` has two storage roles but only
one free device, so per the claim the allocator must raise before issuing
any storage-creation command for `h1`; the code still issues the creation
command for the first role before the assertion fires. -/
theorem c2_osd_allocator_counterexample :
    (ceph_osds [⟨"h1", ["osd.0", "osd.1"], ["d0"]⟩]).2 = false
    ∧ OsdEvent.create "h1" "d0" ∈ (ceph_osds [⟨"h1", ["osd.0", "osd.1"], ["d0"]⟩]).1 := by
  decide

/-- Witness for C2 (amended): host `h0` is satisfiable, `h1` has two roles
and one device, `h2` follows; the run fails, `h1` receives exactly one
creation command consuming its device, and `h2` receives none. -/
theorem c2_osd_allocator_witness :
    ((ceph_osds [OsdHost.mk "h0" ["osd.0"] ["a", "b"]]).2 = true ↔
      ∀ g ∈ [OsdHost.mk "h0" ["osd.0"] ["a", "b"]], hostOk g)
    ∧ (ceph_osds [OsdHost.mk "h0" ["osd.0"] ["a", "b"],
        OsdHost.mk "h1" ["osd.1", "osd.2"] ["c"],
        OsdHost.mk "h2" ["osd.3"] ["d"]]).2 = false
    ∧ (deployHost "h1" (osdRoles ["osd.1", "osd.2"]) ["c"]).1.length = 1 := by
  have h := c2_osd_allocator [OsdHost.mk "h0" ["osd.0"] ["a", "b"]]
    [OsdHost.mk "h0" ["osd.0"] ["a", "b"]]
    [OsdHost.mk "h2" ["osd.3"] ["d"]]
    (OsdHost.mk "h1" ["osd.1", "osd.2"] ["c"])
    (by intro g hg; simp only [List.mem_singleton] at hg; subst hg; decide)
    (by decide)
  exact ⟨h.1, h.2.1, h.2.2.2.1⟩

/-- C9: `ceph_osds` runs one complete zapping pass — every free scratch
device of every host is zapped, in host order — before the deployment pass;
every event of the deployment pass is a storage-creation command, so all
zaps precede all creations in the trace. -/
theorem c9_zap_pass_first (hosts : List OsdHost) :
    (ceph_osds hosts).1 = zapEvents hosts ++ (deployAll hosts).1
    ∧ (∀ e ∈ zapEvents hosts, isZapEv e = true)
    ∧ (∀ e ∈ (deployAll hosts).1, isCreateEv e = true)
    ∧ (∀ g ∈ hosts, ∀ d ∈ g.devs, OsdEvent.zap g.name d ∈ zapEvents hosts) := by
  refine ⟨rfl, ?_, deployAll_events hosts, ?_⟩
  · intro e he
    simp only [zapEvents, List.mem_flatMap, List.mem_map] at he
    obtain ⟨g, _, d, _, hde⟩ := he
    rw [← hde]
    rfl
  · intro g hg d hd
    simp only [zapEvents, List.mem_flatMap]
    exact ⟨g, hg, List.mem_map_of_mem _ hd⟩

/-- Witness for C9: one host with two devices and one role; the trace is the
two zaps followed by the single creation. -/
theorem c9_zap_pass_first_witness :
    (ceph_osds [OsdHost.mk "h1" ["osd.0"] ["d0", "d1"]]).1
      = zapEvents [OsdHost.mk "h1" ["osd.0"] ["d0", "d1"]]
        ++ (deployAll [OsdHost.mk "h1" ["osd.0"] ["d0", "d1"]]).1
    ∧ isZapEv (OsdEvent.zap "h1" "d0") = true
    ∧ OsdEvent.zap "h1" "d1" ∈ zapEvents [OsdHost.mk "h1" ["osd.0"] ["d0", "d1"]] := by
  have h := c9_zap_pass_first [OsdHost.mk "h1" ["osd.0"] ["d0", "d1"]]
  exact ⟨h.1, h.2.1 _ (by decide),
    h.2.2.2 (OsdHost.mk "h1" ["osd.0"] ["d0", "d1"]) (by decide) "d1" (by decide)⟩

end Ceph2
